import Mathlib

/-!
# Verification of the `cargo-testdox` parsing-and-prettification engine

This file shallowly embeds the core of `src/lib.rs` (the line classifier
`parse_line` / `parse_test_results`, the module-path extractor
`prettify_module`, the name prettifier `prettify` / `humanize`, the
`Status` vocabulary and the `Display` renderings) and proves properties
about the embedding.

Rust `&str` values are modelled as `List Char`.  Rust's Unicode
`char::is_whitespace` is modelled by `Char.isWhitespace` (ASCII
whitespace), which agrees with it on every character occurring in
runner output.
-/

set_option maxHeartbeats 1000000

/-- Rust `&str` is modelled as a list of characters. -/
abbrev Str := List Char

namespace Testdox

/-- `str::strip_prefix`: remove `p` from the front of `s` if it is a
prefix, else `none`. -/
def stripPre (p s : Str) : Option Str :=
  if p.isPrefixOf s then some (s.drop p.length) else none

/-- `str::contains(needle)`: substring occurrence test. -/
def containsSub (needle : Str) : Str → Bool
  | [] => needle.isEmpty
  | c :: t => needle.isPrefixOf (c :: t) || containsSub needle t

/-- `str::split_once(needle)`: split around the first occurrence of
`needle`, returning the parts before and after it. -/
def splitOnceSub (needle : Str) : Str → Option (Str × Str)
  | [] => if needle.isPrefixOf ([] : Str) then some ([], []) else none
  | c :: t =>
    if needle.isPrefixOf (c :: t) then some ([], (c :: t).drop needle.length)
    else (splitOnceSub needle t).map fun p => (c :: p.1, p.2)

/-- `str::rsplit_once(needle)`: split around the last occurrence of
`needle`.  Realised as a first-occurrence split on the reversed string
with the reversed needle. -/
def rsplitOnceSub (needle : Str) (s : Str) : Option (Str × Str) :=
  (splitOnceSub needle.reverse s.reverse).map fun p => (p.2.reverse, p.1.reverse)

/-- `str::split("::")`, specialised to the module separator. -/
def splitCC : Str → List Str
  | [] => [[]]
  | ':' :: ':' :: t => [] :: splitCC t
  | c :: t =>
    match splitCC t with
    | [] => [[c]]
    | p :: ps => (c :: p) :: ps

/-- `Vec::pop_if`: drop the last element when it satisfies the
predicate. -/
def popIf (p : α → Bool) (l : List α) : List α :=
  match l.getLast? with
  | some x => if p x then l.dropLast else l
  | none => l

/-- `str::split_whitespace`: the maximal whitespace-free words of a
string, in order. -/
def splitWhitespace : Str → List Str
  | [] => []
  | c :: t =>
    if c.isWhitespace then splitWhitespace t
    else
      match splitWhitespace t, t.head? with
      | [], _ => [[c]]
      | w :: ws, some d =>
        if d.isWhitespace then [c] :: w :: ws else (c :: w) :: ws
      | w :: ws, none => (c :: w) :: ws

/-- The character substitution of `str::replace('_', " ")`. -/
def replUnderscore (c : Char) : Char := if c = '_' then ' ' else c

/-- The status vocabulary of `cargo test` output (`enum Status`). -/
inductive Status where
  | Pass
  | Fail
  | Ignored
deriving DecidableEq

/-- The error produced by `<Status as FromStr>::from_str` for an
unknown token: an `anyhow` error naming the token
(`"unhandled test status {status:?}"`). -/
inductive StatusErr where
  | unhandled (token : Str)
deriving DecidableEq

/-- `impl FromStr for Status`. -/
def status_from_str (s : Str) : Except StatusErr Status :=
  if s = "ok".toList then .ok .Pass
  else if s = "FAILED".toList then .ok .Fail
  else if s = "ignored".toList then .ok .Ignored
  else .error (.unhandled s)

/-- `struct TestResult`. -/
structure TestResult where
  module : Option Str
  name : Str
  status : Status
deriving DecidableEq

/-- `humanize`: replace underscores by spaces, split on whitespace and
rejoin the words with single spaces. -/
def humanize (input : Str) : Str :=
  List.intercalate [' '] (splitWhitespace (input.map replUnderscore))

/-- The escape marker recognised by `prettify`. -/
def fnMarker : Str := "_fn_".toList

/-- `prettify`: format a test-function name as a sentence, keeping the
part before the first `"_fn_"` marker verbatim. -/
def prettify (input : Str) : Str :=
  match splitOnceSub fnMarker input with
  | some (fn_name, sentence) => fn_name ++ ' ' :: humanize sentence
  | none => humanize input

/-- The `"::"` module separator. -/
def colons : Str := "::".toList

/-- The reserved test-module marker `"tests"`. -/
def testsTok : Str := "tests".toList

/-- The reserved test-module marker `"test"`. -/
def testTok : Str := "test".toList

/-- `prettify_module`: drop a trailing `"tests"`/`"test"` segment and
rejoin; `none` if nothing remains. -/
def prettify_module (module : Str) : Option Str :=
  let parts := popIf (fun s => s = testsTok || s = testTok) (splitCC module)
  if parts.isEmpty then none
  else some (List.intercalate colons parts)

/-- The `"test "` line marker. -/
def testSp : Str := "test ".toList

/-- The `"result"` summary marker. -/
def resultTok : Str := "result".toList

/-- The doctest position marker `"(line "` filtered by `parse_line`. -/
def parenLine : Str := "(line ".toList

/-- The `" ... "` separator between test path and status token. -/
def sepDots : Str := " ... ".toList

/-- `parse_line`: classify one line of `cargo test` output. -/
def parse_line (line : Str) : Option TestResult :=
  match stripPre testSp line with
  | none => none
  | some rest =>
    if resultTok.isPrefixOf rest || containsSub parenLine rest then none
    else
      match splitOnceSub sepDots rest with
      | none => none
      | some (test, status) =>
        let mn : Option Str × Str :=
          match rsplitOnceSub colons test with
          | some (m, n) => (prettify_module m, n)
          | none => (none, test)
        match (status_from_str status).toOption with
        | none => none
        | some st => some ⟨mn.1, prettify mn.2, st⟩

/-- `str::lines` splitting on `'\n'`, before trailing-`'\r'` handling. -/
def splitNl : Str → List Str
  | [] => [[]]
  | '\n' :: t => [] :: splitNl t
  | c :: t =>
    match splitNl t with
    | [] => [[c]]
    | p :: ps => (c :: p) :: ps

/-- Strip one trailing `'\r'` (used on the segments of `str::lines`
that were terminated by `'\n'`). -/
def stripCr (l : Str) : Str :=
  if l.getLast? = some '\r' then l.dropLast else l

/-- `str::lines`: split on `'\n'`, strip a `'\r'` before each `'\n'`,
and drop a final empty segment produced by a trailing newline. -/
def rustLines (s : Str) : List Str :=
  let ps := splitNl s
  ps.dropLast.map stripCr ++
    (match ps.getLast? with
     | some [] => []
     | some l => [l]
     | none => [])

/-- `parse_test_results`: classify every line of the captured output. -/
def parse_test_results (test_output : Str) : List TestResult :=
  (rustLines test_output).filterMap parse_line

/-! ## The `Display` implementations (`colored`-crate rendering) -/

/-- The ANSI escape wrapper emitted by the `colored` crate when colors
are enabled: `ESC [ <code> m <text> ESC [ 0 m`. -/
def ansiWrap (code : Str) (s : Str) : Str :=
  '\x1b' :: '[' :: code ++ 'm' :: s ++ '\x1b' :: '[' :: '0' :: 'm' :: []

/-- Color a string when color output is enabled, else leave it alone
(the `colored` crate's behavior on non-tty / `NO_COLOR` output). -/
def paint (enabled : Bool) (code : Str) (s : Str) : Str :=
  if enabled then ansiWrap code s else s

/-- The semantic glyph of `impl Display for Status`. -/
def statusGlyph : Status → Str
  | .Pass => ['✔']
  | .Fail => ['x']
  | .Ignored => ['?']

/-- The ANSI color code of each status (`bright_green`, `bright_red`,
`bright_yellow`). -/
def statusColor : Status → Str
  | .Pass => "92".toList
  | .Fail => "91".toList
  | .Ignored => "93".toList

/-- `impl Display for Status`, parametrised on whether the terminal
layer honors colors. -/
def displayStatus (enabled : Bool) (st : Status) : Str :=
  paint enabled (statusColor st) (statusGlyph st)

/-- The `bright_blue` color code used for module paths. -/
def moduleColor : Str := "94".toList

/-- `impl Display for TestResult`, parametrised on whether the terminal
layer honors colors. -/
def displayTestResult (enabled : Bool) (r : TestResult) : Str :=
  match r.module with
  | some m =>
    displayStatus enabled r.status ++ ' ' :: paint enabled moduleColor m
      ++ ' ' :: '–' :: ' ' :: r.name
  | none => displayStatus enabled r.status ++ ' ' :: r.name

/-- Remove ANSI `ESC [ … m` sequences; the identity on text produced
without color support. -/
def stripAnsiAux : Bool → Str → Str
  | true, [] => []
  | true, c :: t => if c = 'm' then stripAnsiAux false t else stripAnsiAux true t
  | false, [] => []
  | false, '\x1b' :: '[' :: t => stripAnsiAux true t
  | false, c :: t => c :: stripAnsiAux false t

/-- Remove ANSI escape sequences from rendered output. -/
def stripAnsi (s : Str) : Str := stripAnsiAux false s

/-! ## Spec-side model of humanization (for the refinement claim about
`prettify` without the escape marker)

The spec describes humanization as: replace every underscore character
with a space, then collapse consecutive whitespace runs into single
spaces and trim the ends.  The following definitions formalise those
words independently of `humanize`, as a left-to-right run-collapsing
pass followed by trimming. -/

/-- Collapse every maximal run of whitespace characters into a single
space, leaving other characters unchanged. -/
def collapseRuns : Str → Str
  | [] => []
  | c :: t =>
    let r := collapseRuns t
    if c.isWhitespace then (if r.head? = some ' ' then r else ' ' :: r)
    else c :: r

/-- Trim leading whitespace. -/
def ltrimWs (s : Str) : Str := s.dropWhile (·.isWhitespace)

/-- Trim trailing whitespace. -/
def rtrimWs (s : Str) : Str := (s.reverse.dropWhile (·.isWhitespace)).reverse

/-- Collapse whitespace runs into single spaces and trim both ends. -/
def collapseWsTrim (s : Str) : Str := rtrimWs (ltrimWs (collapseRuns s))

/-- The spec's description of humanization: underscore→space
substitution followed by whitespace-run collapsing and trimming. -/
def humanizeSpec (s : Str) : Str := collapseWsTrim (s.map replUnderscore)

/-- The substring `" (line "` (with a leading space) named by the
spec's doctest-filtering rule. -/
def spaceParenLine : Str := " (line ".toList

end Testdox

/-! # Theorems -/

namespace Testdox

/-! ## Substring occurrence and `split_once` -/

theorem containsSub_nil (n : Str) : containsSub n [] = n.isEmpty := rfl

theorem containsSub_cons (n : Str) (c : Char) (t : Str) :
    containsSub n (c :: t) = (n.isPrefixOf (c :: t) || containsSub n t) := rfl

theorem containsSub_eq_true_iff (n h : Str) : containsSub n h = true ↔ n <:+: h := by
  induction h with
  | nil =>
    simp [containsSub, List.isEmpty_iff]
  | cons c t ih =>
    simp [containsSub, List.infix_cons_iff, List.isPrefixOf_iff_prefix, ih]

theorem containsSub_eq_false_iff (n h : Str) : containsSub n h = false ↔ ¬ n <:+: h := by
  rw [← containsSub_eq_true_iff]
  cases containsSub n h <;> simp

theorem containsSub_mono_hay {n h h' : Str} (sub : h' <:+: h)
    (hc : containsSub n h = false) : containsSub n h' = false := by
  rw [containsSub_eq_false_iff] at hc ⊢
  exact fun hi => hc (hi.trans sub)

theorem containsSub_mono_needle {n n' h : Str} (sub : n' <:+: n)
    (hc : containsSub n' h = false) : containsSub n h = false := by
  rw [containsSub_eq_false_iff] at hc ⊢
  exact fun hi => hc (sub.trans hi)

theorem containsSub_reverse (n h : Str) :
    containsSub n h.reverse = containsSub n.reverse h := by
  rcases e1 : containsSub n h.reverse with _ | _ <;>
    rcases e2 : containsSub n.reverse h with _ | _ <;> try rfl
  · rw [containsSub_eq_false_iff] at e1
    rw [containsSub_eq_true_iff] at e2
    exact absurd (by simpa using List.reverse_infix.mpr e2) e1
  · rw [containsSub_eq_true_iff] at e1
    rw [containsSub_eq_false_iff] at e2
    refine absurd ?_ e2
    have := List.reverse_infix.mpr e1
    simpa using this

theorem containsSub_singleton (a : Char) (h : Str) :
    containsSub [a] h = true ↔ a ∈ h := by
  rw [containsSub_eq_true_iff]
  constructor
  · exact fun hi => hi.sublist.subset (by simp)
  · intro hm
    obtain ⟨s, t, rfl⟩ := List.append_of_mem hm
    exact ⟨s, t, by simp⟩

theorem splitOnceSub_eq_some {n h a b : Str}
    (e : splitOnceSub n h = some (a, b)) : h = a ++ n ++ b := by
  induction h generalizing a b with
  | nil =>
    simp only [splitOnceSub] at e
    split at e
    · rename_i hp
      obtain ⟨rfl, rfl⟩ : a = [] ∧ b = [] := by
        constructor <;> (cases e; rfl)
      have : n <+: ([] : Str) := List.isPrefixOf_iff_prefix.mp hp
      simp_all
    · cases e
  | cons c t ih =>
    simp only [splitOnceSub] at e
    split at e
    · rename_i hp
      obtain ⟨rfl, rfl⟩ : a = [] ∧ b = (c :: t).drop n.length := by
        constructor <;> (cases e; rfl)
      have := List.prefix_iff_eq_append.mp (List.isPrefixOf_iff_prefix.mp hp)
      simpa using this.symm
    · rename_i hp
      rcases e' : splitOnceSub n t with _ | ⟨p, q⟩
      · rw [e'] at e; cases e
      · rw [e'] at e
        simp only [Option.map_some'] at e
        obtain ⟨rfl, rfl⟩ : a = c :: p ∧ b = q := by
          constructor <;> (cases e; rfl)
        have := ih e'
        simp [this]

theorem splitOnceSub_left {n h a b : Str} (hn : n ≠ [])
    (e : splitOnceSub n h = some (a, b)) : containsSub n a = false := by
  induction h generalizing a b with
  | nil =>
    simp only [splitOnceSub] at e
    split at e
    · rename_i hp
      have : n = [] := by simpa using List.isPrefixOf_iff_prefix.mp hp
      exact absurd this hn
    · cases e
  | cons c t ih =>
    simp only [splitOnceSub] at e
    split at e
    · obtain rfl : a = [] := by cases e; rfl
      simpa [containsSub, List.isEmpty_iff] using hn
    · rename_i hp
      rcases e' : splitOnceSub n t with _ | ⟨p, q⟩
      · rw [e'] at e; cases e
      · rw [e'] at e
        simp only [Option.map_some'] at e
        obtain ⟨rfl, rfl⟩ : a = c :: p ∧ b = q := by
          constructor <;> (cases e; rfl)
        have hrec := ih e'
        rw [containsSub_cons, hrec, Bool.or_false]
        by_contra hb
        have hb' : n.isPrefixOf (c :: p) = true := by
          cases hx : n.isPrefixOf (c :: p)
          · exact absurd hx hb
          · rfl
        have h1 : n <+: c :: p := List.isPrefixOf_iff_prefix.mp hb'
        have h2 : c :: p <+: c :: t := by
          rw [List.cons_prefix_cons]
          refine ⟨rfl, ?_⟩
          have := splitOnceSub_eq_some e'
          rw [this]
          exact (List.prefix_append p n).trans (List.prefix_append (p ++ n) _)
        exact hp (List.isPrefixOf_iff_prefix.mpr (h1.trans h2))

theorem splitOnceSub_min {n h a b : Str}
    (e : splitOnceSub n h = some (a, b)) :
    ∀ a' b', h = a' ++ n ++ b' → a.length ≤ a'.length := by
  induction h generalizing a b with
  | nil =>
    intro a' b' _
    simp only [splitOnceSub] at e
    split at e
    · obtain rfl : a = [] := by cases e; rfl
      simp
    · cases e
  | cons c t ih =>
    intro a' b' hdec
    simp only [splitOnceSub] at e
    split at e
    · obtain rfl : a = [] := by cases e; rfl
      simp
    · rename_i hp
      rcases e' : splitOnceSub n t with _ | ⟨p, q⟩
      · rw [e'] at e; cases e
      · rw [e'] at e
        simp only [Option.map_some'] at e
        obtain ⟨rfl, rfl⟩ : a = c :: p ∧ b = q := by
          constructor <;> (cases e; rfl)
        rcases a' with _ | ⟨c', a₀⟩
        · exfalso
          apply hp
          apply List.isPrefixOf_iff_prefix.mpr
          rw [show ([] : Str) ++ n ++ b' = n ++ b' by simp] at hdec
          rw [hdec]
          exact List.prefix_append n b'
        · have ht : t = a₀ ++ n ++ b' := by
            simpa using congrArg List.tail hdec
          have := ih e' a₀ b' ht
          simpa using this

theorem splitOnceSub_isSome_of_contains {n h : Str}
    (hc : containsSub n h = true) : (splitOnceSub n h).isSome = true := by
  induction h with
  | nil =>
    have : n = [] := by simpa [containsSub, List.isEmpty_iff] using hc
    subst this
    simp [splitOnceSub, List.isPrefixOf]
  | cons c t ih =>
    rw [containsSub_cons, Bool.or_eq_true] at hc
    simp only [splitOnceSub]
    rcases hc with hc | hc
    · rw [if_pos hc]; rfl
    · split
      · rfl
      · have := ih hc
        rcases e' : splitOnceSub n t with _ | p
        · rw [e'] at this; cases this
        · simp [e']

theorem splitOnceSub_eq_none_iff (n h : Str) :
    splitOnceSub n h = none ↔ containsSub n h = false := by
  constructor
  · intro he
    cases hc : containsSub n h
    · rfl
    · have := splitOnceSub_isSome_of_contains hc
      rw [he] at this
      cases this
  · intro hc
    rcases e : splitOnceSub n h with _ | ⟨a, b⟩
    · rfl
    · exfalso
      have hd := splitOnceSub_eq_some e
      have : n <:+: h := by rw [hd]; exact List.infix_append a n b
      rw [containsSub_eq_false_iff] at hc
      exact hc this

end Testdox

namespace Testdox

/-! ## The line classifier -/

/-- **C2.** `parse_line` produces a result only when the line begins with
the literal prefix `"test "`, the remainder does not begin with
`"result"` and does not contain `" (line "`, and the remainder contains
the separator `" ... "`, at whose first occurrence (the part before the
separator contains no earlier occurrence) the remainder splits into the
raw test path and the raw status token.  The claim's "returns `None`
otherwise" clause is the contrapositive of this implication,
`parse_line` being `Option`-valued. -/
theorem parse_line_only_when (line : Str) (r : TestResult)
    (h : parse_line line = some r) :
    ∃ rest, stripPre testSp line = some rest ∧
      resultTok.isPrefixOf rest = false ∧
      containsSub spaceParenLine rest = false ∧
      ∃ path tok, splitOnceSub sepDots rest = some (path, tok) ∧
        rest = path ++ sepDots ++ tok ∧ containsSub sepDots path = false := by
  rcases e1 : stripPre testSp line with _ | rest
  · simp only [parse_line, e1] at h
    exact Option.noConfusion h
  · simp only [parse_line, e1] at h
    by_cases hb : (resultTok.isPrefixOf rest || containsSub parenLine rest) = true
    · rw [if_pos hb] at h; cases h
    · have hb' := hb
      rw [Bool.or_eq_true] at hb'
      push_neg at hb'
      obtain ⟨hres, hpar⟩ : resultTok.isPrefixOf rest = false ∧
          containsSub parenLine rest = false := by
        constructor
        · cases hx : resultTok.isPrefixOf rest
          · rfl
          · exact absurd hx hb'.1
        · cases hx : containsSub parenLine rest
          · rfl
          · exact absurd hx hb'.2
      rw [if_neg hb] at h
      rcases e2 : splitOnceSub sepDots rest with _ | ⟨path, tok⟩
      · rw [e2] at h; cases h
      · refine ⟨rest, rfl, hres, ?_, path, tok, e2, splitOnceSub_eq_some e2,
          splitOnceSub_left (by decide) e2⟩
        refine containsSub_mono_needle ?_ hpar
        exact ⟨[' '], [], rfl⟩

/-- Witness for C2 at the line `"test a ... ok"`. -/
theorem parse_line_only_when_witness :
    ∃ rest, stripPre testSp ("test a ... ok".toList) = some rest ∧
      resultTok.isPrefixOf rest = false ∧
      containsSub spaceParenLine rest = false ∧
      ∃ path tok, splitOnceSub sepDots rest = some (path, tok) ∧
        rest = path ++ sepDots ++ tok ∧ containsSub sepDots path = false :=
  parse_line_only_when ("test a ... ok".toList) ⟨none, ['a'], .Pass⟩ (by decide)

/-! ## Unknown status tokens -/

theorem status_from_str_unknown {tok : Str} (h5 : tok ≠ "ok".toList)
    (h6 : tok ≠ "FAILED".toList) (h7 : tok ≠ "ignored".toList) :
    status_from_str tok = .error (.unhandled tok) := by
  unfold status_from_str
  rw [if_neg h5, if_neg h6, if_neg h7]

theorem parse_line_none_of_unknown {line rest path tok : Str}
    (h1 : stripPre testSp line = some rest)
    (h2 : resultTok.isPrefixOf rest = false)
    (h3 : containsSub parenLine rest = false)
    (h4 : splitOnceSub sepDots rest = some (path, tok))
    (h5 : tok ≠ "ok".toList) (h6 : tok ≠ "FAILED".toList)
    (h7 : tok ≠ "ignored".toList) :
    parse_line line = none := by
  simp only [parse_line, h1]
  rw [if_neg (by rw [h2, h3]; simp)]
  simp only [h4, status_from_str_unknown h5 h6 h7, Except.toOption]

/-- **C1 counterexample.** A `test … ... banana` line is silently dropped
from the results (alongside normally parsed neighbours), with no error
surfaced — contradicting the claim that such a line must be a fatal,
unrecoverable error and must not be dropped. -/
theorem unknown_status_fatal_counterexample :
    parse_line ("test b ... banana".toList) = none ∧
    parse_test_results ("test a ... ok\ntest b ... banana".toList) =
      [⟨none, ['a'], Status.Pass⟩] := by decide

/-- **C1 amended.** For every line of shape `test <path> ... <token>`
with a token outside `{ok, FAILED, ignored}`, the status parser
(`FromStr`) returns an error naming the unexpected token, but
`parse_line` discards that error (`.ok()?`) and returns `none`: the line
is silently dropped from the results rather than surfaced as a fatal
error. -/
theorem unknown_status_token_behavior (line rest path tok : Str)
    (h1 : stripPre testSp line = some rest)
    (h2 : resultTok.isPrefixOf rest = false)
    (h3 : containsSub parenLine rest = false)
    (h4 : splitOnceSub sepDots rest = some (path, tok))
    (h5 : tok ≠ "ok".toList) (h6 : tok ≠ "FAILED".toList)
    (h7 : tok ≠ "ignored".toList) :
    status_from_str tok = .error (.unhandled tok) ∧ parse_line line = none :=
  ⟨status_from_str_unknown h5 h6 h7,
   parse_line_none_of_unknown h1 h2 h3 h4 h5 h6 h7⟩

/-- Witness for the amended C1 at `"test foo ... banana"`. -/
theorem unknown_status_token_behavior_witness :
    status_from_str ("banana".toList) = .error (.unhandled ("banana".toList)) ∧
    parse_line ("test foo ... banana".toList) = none :=
  unknown_status_token_behavior ("test foo ... banana".toList)
    ("foo ... banana".toList) ("foo".toList) ("banana".toList)
    (by decide) (by decide) (by decide) (by decide)
    (by decide) (by decide) (by decide)

/-- **C10.** A `test <path> ... <token>` line with a token outside
`{ok, FAILED, ignored}` makes `parse_line` return `none` without any
error, and `parse_test_results` silently omits that line while still
returning the results of every other qualifying line, in order. -/
theorem unknown_status_line_omitted (line rest path tok text : Str)
    (pre post : List Str)
    (h1 : stripPre testSp line = some rest)
    (h2 : resultTok.isPrefixOf rest = false)
    (h3 : containsSub parenLine rest = false)
    (h4 : splitOnceSub sepDots rest = some (path, tok))
    (h5 : tok ≠ "ok".toList) (h6 : tok ≠ "FAILED".toList)
    (h7 : tok ≠ "ignored".toList)
    (hsplit : rustLines text = pre ++ line :: post) :
    parse_line line = none ∧
    parse_test_results text =
      pre.filterMap parse_line ++ post.filterMap parse_line := by
  have hnone := parse_line_none_of_unknown h1 h2 h3 h4 h5 h6 h7
  refine ⟨hnone, ?_⟩
  rw [parse_test_results, hsplit, List.filterMap_append, List.filterMap_cons,
    hnone]

/-- Witness for C10 on a three-line input whose middle line has the
unknown token `"banana"`. -/
theorem unknown_status_line_omitted_witness :
    parse_line ("test b ... banana".toList) = none ∧
    parse_test_results ("test a ... ok\ntest b ... banana\ntest c ... FAILED".toList) =
      (["test a ... ok".toList] : List Str).filterMap parse_line ++
        (["test c ... FAILED".toList] : List Str).filterMap parse_line :=
  unknown_status_line_omitted ("test b ... banana".toList)
    ("b ... banana".toList) (['b']) ("banana".toList)
    ("test a ... ok\ntest b ... banana\ntest c ... FAILED".toList)
    (["test a ... ok".toList]) (["test c ... FAILED".toList])
    (by decide) (by decide) (by decide) (by decide)
    (by decide) (by decide) (by decide) (by decide)

end Testdox

namespace Testdox

/-! ## Order preservation of `parse_test_results` -/

theorem length_filterMap_countP (f : α → Option β) (l : List α) :
    (l.filterMap f).length = l.countP (fun a => (f a).isSome) := by
  induction l with
  | nil => rfl
  | cons a t ih =>
    rw [List.filterMap_cons, List.countP_cons]
    cases hf : f a <;> simp [hf, ih]

/-- **C9.** `parse_test_results` yields one `TestResult` per qualifying
line (one whose `parse_line` succeeds) and the output sequence preserves
the relative order of the source lines: a qualifying line's result sits
exactly between the results of the lines before it and the results of
the lines after it. -/
theorem parse_test_results_order (text l : Str) (pre post : List Str)
    (r : TestResult) (hsplit : rustLines text = pre ++ l :: post)
    (hl : parse_line l = some r) :
    parse_test_results text =
      pre.filterMap parse_line ++ r :: post.filterMap parse_line ∧
    (parse_test_results text).length =
      (rustLines text).countP (fun x => (parse_line x).isSome) := by
  constructor
  · rw [parse_test_results, hsplit, List.filterMap_append, List.filterMap_cons, hl]
  · rw [parse_test_results, length_filterMap_countP]

/-- Witness for C9 on a three-line input. -/
theorem parse_test_results_order_witness :
    parse_test_results ("test a ... ok\nnoise\ntest b ... FAILED".toList) =
      ([] : List Str).filterMap parse_line ++
        (⟨none, ['a'], Status.Pass⟩ : TestResult) ::
          (["noise".toList, "test b ... FAILED".toList] : List Str).filterMap parse_line ∧
    (parse_test_results ("test a ... ok\nnoise\ntest b ... FAILED".toList)).length =
      (rustLines ("test a ... ok\nnoise\ntest b ... FAILED".toList)).countP
        (fun x => (parse_line x).isSome) :=
  parse_test_results_order ("test a ... ok\nnoise\ntest b ... FAILED".toList)
    ("test a ... ok".toList) []
    (["noise".toList, "test b ... FAILED".toList]) ⟨none, ['a'], Status.Pass⟩
    (by decide) (by decide)

/-! ## The module-path extractor -/

theorem intercalate_cons_cons (s x y : Str) (zs : List Str) :
    List.intercalate s (x :: y :: zs) = x ++ s ++ List.intercalate s (y :: zs) := by
  simp [List.intercalate]

theorem intercalate_cons_elem (s : Str) (c : Char) (p : Str) (ps : List Str) :
    List.intercalate s ((c :: p) :: ps) = c :: List.intercalate s (p :: ps) := by
  cases ps with
  | nil => simp [List.intercalate]
  | cons q qs => rw [intercalate_cons_cons, intercalate_cons_cons]; rfl

theorem splitCC_ne_nil (s : Str) : splitCC s ≠ [] := by
  induction s using splitCC.induct with
  | case1 => simp [splitCC.eq_1]
  | case2 t ih => simp [splitCC.eq_2]
  | case3 c t hne he ih =>
    rw [splitCC.eq_3 c t hne, he]
    simp
  | case4 c t hne p ps he ih =>
    rw [splitCC.eq_3 c t hne, he]
    simp

theorem intercalate_splitCC (m : Str) :
    List.intercalate colons (splitCC m) = m := by
  induction m using splitCC.induct with
  | case1 => simp [splitCC.eq_1, List.intercalate]
  | case2 t ih =>
    rw [splitCC.eq_2]
    rcases e : splitCC t with _ | ⟨p, ps⟩
    · exact absurd e (splitCC_ne_nil t)
    · rw [intercalate_cons_cons]
      rw [e] at ih
      rw [ih]
      rfl
  | case3 c t hne he ih => exact absurd he (splitCC_ne_nil t)
  | case4 c t hne p ps he ih =>
    rw [splitCC.eq_3 c t hne, he]
    rw [he] at ih
    rw [intercalate_cons_elem, ih]

/-- **C3.** On every raw candidate module path, `prettify_module` drops
at most one trailing `"::"`-segment, and only when that last segment is
exactly `"tests"` or `"test"`; interior marker segments and segments
merely prefixed by a marker are preserved (the path comes back
verbatim when the last segment is not a marker), and if dropping the
segment leaves nothing, the result has no module. -/
theorem prettify_module_spec (m : Str) :
    prettify_module m =
      if (splitCC m).getLast? = some testsTok ∨
          (splitCC m).getLast? = some testTok then
        (if (splitCC m).dropLast = [] then none
         else some (List.intercalate colons (splitCC m).dropLast))
      else some m := by
  have hne := splitCC_ne_nil m
  rcases e : (splitCC m).getLast? with _ | x
  · exact absurd (List.getLast?_eq_none_iff.mp e) hne
  by_cases hx : x = testsTok ∨ x = testTok
  · have hpred : (decide (x = testsTok) || decide (x = testTok)) = true := by
      rcases hx with h | h <;> simp [h]
    have hpop : popIf (fun s => s = testsTok || s = testTok) (splitCC m)
        = (splitCC m).dropLast := by
      simp only [popIf, e, hpred, if_true]
    have hcond : some x = some testsTok ∨ some x = some testTok := by
      rcases hx with h | h
      · exact Or.inl (by rw [h])
      · exact Or.inr (by rw [h])
    rw [if_pos hcond]
    simp only [prettify_module, hpop]
    by_cases hd : (splitCC m).dropLast = []
    · simp [hd]
    · simp only [if_neg hd]
      rw [if_neg (by rw [List.isEmpty_iff]; exact hd)]
  · push_neg at hx
    have hpred : (decide (x = testsTok) || decide (x = testTok)) = false := by
      simp [hx.1, hx.2]
    have hpop : popIf (fun s => s = testsTok || s = testTok) (splitCC m)
        = splitCC m := by
      simp only [popIf, e, hpred]
      simp
    have hcond : ¬(some x = some testsTok ∨ some x = some testTok) := by
      rintro (hc | hc) <;> injection hc with hc
      · exact hx.1 hc
      · exact hx.2 hc
    rw [if_neg hcond]
    simp only [prettify_module, hpop]
    rw [if_neg (by rw [List.isEmpty_iff]; exact hne), intercalate_splitCC]

end Testdox

namespace Testdox

/-! ## Whitespace machinery: trims -/

theorem isPrefixOf_cons_cons (a b : Char) (n l : Str) :
    List.isPrefixOf (a :: n) (b :: l) = ((a == b) && List.isPrefixOf n l) := rfl

theorem head?_mem' {l : Str} {a : Char} (h : l.head? = some a) : a ∈ l := by
  cases l with
  | nil => cases h
  | cons b t =>
    injection h with h
    rw [h]
    exact List.mem_cons_self a t

theorem ltrimWs_cons_ws {c : Char} (hc : c.isWhitespace = true) (x : Str) :
    ltrimWs (c :: x) = ltrimWs x := by
  simp [ltrimWs, List.dropWhile_cons, hc]

theorem ltrimWs_cons_nonws {c : Char} (hc : c.isWhitespace = false) (x : Str) :
    ltrimWs (c :: x) = c :: x := by
  simp [ltrimWs, List.dropWhile_cons, hc]

theorem ltrimWs_of_head_nonws {l : Str} {d : Char} (h : l.head? = some d)
    (hd : d.isWhitespace = false) : ltrimWs l = l := by
  cases l with
  | nil => rfl
  | cons b t =>
    injection h with h
    subst h
    exact ltrimWs_cons_nonws hd t

theorem dropWhile_append_singleton {p : Char → Bool} {c : Char}
    (hc : p c = false) (y : Str) :
    List.dropWhile p (y ++ [c]) = List.dropWhile p y ++ [c] := by
  rw [List.dropWhile_append]
  by_cases he : (List.dropWhile p y).isEmpty = true
  · rw [if_pos he]
    rw [List.isEmpty_iff] at he
    rw [he]
    simp [List.dropWhile_cons, hc]
  · rw [if_neg he]

theorem rtrimWs_cons_nonws {c : Char} (hc : c.isWhitespace = false) (x : Str) :
    rtrimWs (c :: x) = c :: rtrimWs x := by
  unfold rtrimWs
  have : (c :: x).reverse = x.reverse ++ [c] := by simp
  rw [this, dropWhile_append_singleton hc, List.reverse_append]
  rfl

theorem rtrimWs_append_of_ex {y : Str}
    (hy : ∃ e ∈ y, e.isWhitespace = false) (x : Str) :
    rtrimWs (x ++ y) = x ++ rtrimWs y := by
  obtain ⟨e, hmem, hws⟩ := hy
  unfold rtrimWs
  rw [List.reverse_append]
  have hne : List.dropWhile (·.isWhitespace) y.reverse ≠ [] := by
    intro hnil
    rw [List.dropWhile_eq_nil_iff] at hnil
    have := hnil e (List.mem_reverse.mpr hmem)
    rw [hws] at this
    cases this
  rw [List.dropWhile_append, if_neg (by rw [List.isEmpty_iff]; exact hne)]
  rw [List.reverse_append, List.reverse_reverse]

/-! ## Whitespace machinery: `collapseRuns` -/

theorem collapseRuns_cons_ws {c : Char} (hc : c.isWhitespace = true) (t : Str) :
    collapseRuns (c :: t) =
      (if (collapseRuns t).head? = some ' ' then collapseRuns t
       else ' ' :: collapseRuns t) := by
  simp [collapseRuns, hc]

theorem collapseRuns_cons_nonws {c : Char} (hc : c.isWhitespace = false) (t : Str) :
    collapseRuns (c :: t) = c :: collapseRuns t := by
  simp [collapseRuns, hc]

theorem collapseRuns_head (u : Str) :
    (collapseRuns u).head? =
      u.head?.map (fun c => if c.isWhitespace then ' ' else c) := by
  cases u with
  | nil => rfl
  | cons c t =>
    cases hc : c.isWhitespace
    · rw [collapseRuns_cons_nonws hc]
      simp [hc]
    · rw [collapseRuns_cons_ws hc]
      by_cases hh : (collapseRuns t).head? = some ' '
      · rw [if_pos hh, hh]
        simp [hc]
      · rw [if_neg hh]
        simp [hc]

theorem collapseRuns_all_ws (u : Str) (h : ∀ c ∈ u, c.isWhitespace = true) :
    collapseRuns u = if u = [] then [] else [' '] := by
  induction u with
  | nil => rfl
  | cons c t ih =>
    have hc : c.isWhitespace = true := h c (List.mem_cons_self c t)
    have ht := ih (fun d hd => h d (List.mem_cons_of_mem c hd))
    rw [collapseRuns_cons_ws hc]
    by_cases hT : t = []
    · subst hT
      simp [collapseRuns]
    · rw [ht, if_neg hT]
      simp

theorem mem_collapseRuns_of_nonws {c : Char} {u : Str} (hm : c ∈ u)
    (hc : c.isWhitespace = false) : c ∈ collapseRuns u := by
  induction u with
  | nil => cases hm
  | cons d t ih =>
    rcases List.mem_cons.mp hm with rfl | hm'
    · rw [collapseRuns_cons_nonws hc]
      exact List.mem_cons_self c (collapseRuns t)
    · cases hd : d.isWhitespace
      · rw [collapseRuns_cons_nonws hd]
        exact List.mem_cons_of_mem d (ih hm')
      · rw [collapseRuns_cons_ws hd]
        by_cases hh : (collapseRuns t).head? = some ' '
        · rw [if_pos hh]
          exact ih hm'
        · rw [if_neg hh]
          exact List.mem_cons_of_mem ' ' (ih hm')

theorem collapseRuns_space_cons (t r : Str) (h : collapseRuns t = ' ' :: r) :
    r.head? = none ∨ ∃ e, r.head? = some e ∧ e.isWhitespace = false := by
  induction t generalizing r with
  | nil => cases h
  | cons c t' ih =>
    cases hc : c.isWhitespace
    · rw [collapseRuns_cons_nonws hc] at h
      injection h with h1 h2
      rw [h1] at hc
      cases hc
    · rw [collapseRuns_cons_ws hc] at h
      by_cases hh : (collapseRuns t').head? = some ' '
      · rw [if_pos hh] at h
        exact ih r h
      · rw [if_neg hh] at h
        injection h with h1 h2
        subst h2
        rw [collapseRuns_head] at hh ⊢
        revert hh
        rcases t'.head? with _ | e <;> intro hh
        · left
          rfl
        · right
          cases he : e.isWhitespace
          · exact ⟨e, by simp [he], he⟩
          · exact absurd (by simp [he]) hh

end Testdox

namespace Testdox

/-! ## Whitespace machinery: `splitWhitespace` -/

theorem splitWhitespace_cons_ws {c : Char} (hc : c.isWhitespace = true) (t : Str) :
    splitWhitespace (c :: t) = splitWhitespace t := by
  simp [splitWhitespace, hc]

theorem splitWhitespace_cons_ne_nil {c : Char} (hc : c.isWhitespace = false)
    (t : Str) : splitWhitespace (c :: t) ≠ [] := by
  simp only [splitWhitespace, hc, Bool.false_eq_true, if_false]
  split <;> (try split) <;> simp

theorem splitWhitespace_eq_nil_iff (u : Str) :
    splitWhitespace u = [] ↔ ∀ c ∈ u, c.isWhitespace = true := by
  induction u with
  | nil => simp [splitWhitespace]
  | cons c t ih =>
    cases hc : c.isWhitespace
    · constructor
      · intro hcon
        exact absurd hcon (splitWhitespace_cons_ne_nil hc t)
      · intro hall
        have := hall c (List.mem_cons_self c t)
        rw [hc] at this
        cases this
    · rw [splitWhitespace_cons_ws hc, ih, List.forall_mem_cons]
      simp [hc]

theorem collapseWsTrim_cons_ws {c : Char} (hc : c.isWhitespace = true) (t : Str) :
    collapseWsTrim (c :: t) = collapseWsTrim t := by
  unfold collapseWsTrim
  rw [collapseRuns_cons_ws hc]
  by_cases hh : (collapseRuns t).head? = some ' '
  · rw [if_pos hh]
  · rw [if_neg hh, ltrimWs_cons_ws (c := ' ') rfl]

/-- The words of a string joined by single spaces equal the string with
whitespace runs collapsed and ends trimmed: `humanize`'s
split-and-rejoin realises the spec's collapse-and-trim description. -/
theorem intercalate_splitWs_eq (u : Str) :
    List.intercalate [' '] (splitWhitespace u) = collapseWsTrim u := by
  induction u with
  | nil => rfl
  | cons c t ih =>
    cases hc : c.isWhitespace
    case true =>
      rw [splitWhitespace_cons_ws hc, collapseWsTrim_cons_ws hc]
      exact ih
    case false =>
      have hTrim : collapseWsTrim (c :: t) = c :: rtrimWs (collapseRuns t) := by
        unfold collapseWsTrim
        rw [collapseRuns_cons_nonws hc, ltrimWs_cons_nonws hc, rtrimWs_cons_nonws hc]
      rcases e1 : splitWhitespace t with _ | ⟨w, ws⟩
      · have hall := (splitWhitespace_eq_nil_iff t).mp e1
        have hsw : splitWhitespace (c :: t) = [[c]] := by
          simp [splitWhitespace, hc, e1]
        rw [hsw, hTrim, collapseRuns_all_ws t hall]
        by_cases hT : t = []
        · rw [if_pos hT]
          simp [rtrimWs, List.intercalate]
        · rw [if_neg hT]
          have h9 : rtrimWs [' '] = ([] : Str) := rfl
          rw [h9]
          simp [List.intercalate]
      · rcases e2 : t.head? with _ | d
        · rw [List.head?_eq_none_iff] at e2
          subst e2
          rw [show splitWhitespace ([] : Str) = [] from rfl] at e1
          cases e1
        · cases hd : d.isWhitespace
          case false =>
            have hsw : splitWhitespace (c :: t) = (c :: w) :: ws := by
              simp [splitWhitespace, hc, e1, e2, hd]
            rw [hsw, intercalate_cons_elem, hTrim]
            rw [e1] at ih
            have hid : ltrimWs (collapseRuns t) = collapseRuns t := by
              apply ltrimWs_of_head_nonws (d := d)
              · rw [collapseRuns_head, e2]
                simp [hd]
              · exact hd
            congr 1
            rw [ih]
            unfold collapseWsTrim
            rw [hid]
          case true =>
            have hsw : splitWhitespace (c :: t) = [c] :: w :: ws := by
              simp [splitWhitespace, hc, e1, e2, hd]
            rw [hsw, intercalate_cons_cons, hTrim]
            have hhead : (collapseRuns t).head? = some ' ' := by
              rw [collapseRuns_head, e2]
              simp [hd]
            rcases e3 : collapseRuns t with _ | ⟨s0, r⟩
            · rw [e3] at hhead
              cases hhead
            · rw [e3, List.head?_cons] at hhead
              injection hhead with hs0
              subst hs0
              rcases collapseRuns_space_cons t r e3 with hr | ⟨e, he1, he2⟩
              · exfalso
                rw [List.head?_eq_none_iff] at hr
                subst hr
                have hnall : ¬ ∀ c' ∈ t, c'.isWhitespace = true := by
                  intro hall
                  rw [(splitWhitespace_eq_nil_iff t).mpr hall] at e1
                  cases e1
                push_neg at hnall
                obtain ⟨c', hc'm, hc'w⟩ := hnall
                have hc'f : c'.isWhitespace = false := by
                  cases hx : c'.isWhitespace
                  · rfl
                  · exact absurd hx hc'w
                have hmm := mem_collapseRuns_of_nonws hc'm hc'f
                rw [e3] at hmm
                rcases List.mem_cons.mp hmm with rfl | hmem
                · exact absurd hc'f (by decide)
                · cases hmem
              · have hex : ∃ eC ∈ r, eC.isWhitespace = false :=
                  ⟨e, head?_mem' he1, he2⟩
                have hW13 : rtrimWs (' ' :: r) = ' ' :: rtrimWs r := by
                  have h0 : (' ' :: r : Str) = [' '] ++ r := rfl
                  rw [h0, rtrimWs_append_of_ex hex]
                  rfl
                rw [hW13]
                rw [e1] at ih
                have hct : collapseWsTrim t = rtrimWs r := by
                  unfold collapseWsTrim
                  rw [e3, ltrimWs_cons_ws (c := ' ') rfl, ltrimWs_of_head_nonws he1 he2]
                rw [ih, hct]
                rfl

end Testdox

namespace Testdox

/-! ## No adjacent double spaces; the C4 equivalence -/

theorem containsSub_two_space_collapseRuns (u : Str) :
    containsSub [' ', ' '] (collapseRuns u) = false := by
  induction u with
  | nil => rfl
  | cons c t ih =>
    cases hc : c.isWhitespace
    · rw [collapseRuns_cons_nonws hc, containsSub_cons, ih, Bool.or_false,
        isPrefixOf_cons_cons]
      have hne : (' ' == c) = false := by
        rw [beq_eq_false_iff_ne]
        intro h
        rw [← h] at hc
        exact absurd hc (by decide)
      rw [hne, Bool.false_and]
    · rw [collapseRuns_cons_ws hc]
      by_cases hh : (collapseRuns t).head? = some ' '
      · rw [if_pos hh]
        exact ih
      · rw [if_neg hh, containsSub_cons, ih, Bool.or_false, isPrefixOf_cons_cons]
        rw [show (' ' == ' ') = true from rfl, Bool.true_and]
        rcases e : collapseRuns t with _ | ⟨y, r⟩
        · rfl
        · rw [isPrefixOf_cons_cons]
          have hne : (' ' == y) = false := by
            rw [beq_eq_false_iff_ne]
            intro h
            rw [e, ← h] at hh
            exact hh rfl
          rw [hne, Bool.false_and]

theorem ltrimWs_isSuffix (s : Str) : ltrimWs s <:+ s :=
  List.dropWhile_suffix _

theorem rtrimWs_isPre (s : Str) : rtrimWs s <+: s := by
  unfold rtrimWs
  have h1 : List.dropWhile (·.isWhitespace) s.reverse <:+ s.reverse :=
    List.dropWhile_suffix _
  have h2 := List.reverse_prefix.mpr h1
  rwa [List.reverse_reverse] at h2

theorem collapseWsTrim_isInfixCR (s : Str) : collapseWsTrim s <:+: collapseRuns s := by
  unfold collapseWsTrim
  exact (rtrimWs_isPre _).isInfix.trans (ltrimWs_isSuffix _).isInfix

theorem containsSub_collapseWsTrim_false {n s : Str}
    (h : containsSub n (collapseRuns s) = false) :
    containsSub n (collapseWsTrim s) = false :=
  containsSub_mono_hay (collapseWsTrim_isInfixCR s) h

/-- **C4.** For every input in which the escape marker `"_fn_"` does not
occur, `prettify` equals underscore→space substitution followed by
collapsing whitespace runs into single spaces and trimming the ends
(the spec-side `humanizeSpec`); in particular
`prettify "no_matches" = "no matches"`, `prettify "single" = "single"`,
and the output never contains two adjacent spaces. -/
theorem prettify_no_marker (x : Str) (h : containsSub fnMarker x = false) :
    prettify x = humanizeSpec x ∧
    containsSub [' ', ' '] (prettify x) = false ∧
    prettify ("no_matches".toList) = "no matches".toList ∧
    prettify ("single".toList) = "single".toList := by
  have hnone : splitOnceSub fnMarker x = none := (splitOnceSub_eq_none_iff _ _).mpr h
  have heq : prettify x = humanizeSpec x := by
    simp only [prettify, hnone, humanize, humanizeSpec, intercalate_splitWs_eq]
  refine ⟨heq, ?_, by decide, by decide⟩
  rw [heq, humanizeSpec]
  exact containsSub_collapseWsTrim_false (containsSub_two_space_collapseRuns _)

/-- Witness for C4 at `"no_matches"`. -/
theorem prettify_no_marker_witness :
    prettify ("no_matches".toList) = humanizeSpec ("no_matches".toList) ∧
    containsSub [' ', ' '] (prettify ("no_matches".toList)) = false ∧
    prettify ("no_matches".toList) = "no matches".toList ∧
    prettify ("single".toList) = "single".toList :=
  prettify_no_marker ("no_matches".toList) (by decide)

end Testdox

namespace Testdox

/-- **C5.** For every input containing `"_fn_"`, `prettify` splits at the
first occurrence (the head is shortest among all decompositions and
itself contains no occurrence) into `(head, tail)` and returns the head
verbatim, one space, and the humanized tail; in particular
`prettify "parse_line_fn_does_stuff" = "parse_line does stuff"`. -/
theorem prettify_with_marker (x : Str) (h : containsSub fnMarker x = true) :
    (∃ head tail, x = head ++ fnMarker ++ tail ∧
      (∀ h' t', x = h' ++ fnMarker ++ t' → head.length ≤ h'.length) ∧
      containsSub fnMarker head = false ∧
      prettify x = head ++ ' ' :: humanize tail) ∧
    prettify ("parse_line_fn_does_stuff".toList) = "parse_line does stuff".toList := by
  refine ⟨?_, by decide⟩
  have hsome := splitOnceSub_isSome_of_contains h
  rcases e : splitOnceSub fnMarker x with _ | ⟨a, b⟩
  · rw [e] at hsome
    cases hsome
  · refine ⟨a, b, splitOnceSub_eq_some e, splitOnceSub_min e,
      splitOnceSub_left (by decide) e, ?_⟩
    simp only [prettify, e]

/-- Witness for C5 at `"parse_line_fn_does_stuff"`. -/
theorem prettify_with_marker_witness :
    (∃ head tail, "parse_line_fn_does_stuff".toList = head ++ fnMarker ++ tail ∧
      (∀ h' t', "parse_line_fn_does_stuff".toList = h' ++ fnMarker ++ t' →
        head.length ≤ h'.length) ∧
      containsSub fnMarker head = false ∧
      prettify ("parse_line_fn_does_stuff".toList) = head ++ ' ' :: humanize tail) ∧
    prettify ("parse_line_fn_does_stuff".toList) = "parse_line does stuff".toList :=
  prettify_with_marker ("parse_line_fn_does_stuff".toList) (by decide)

end Testdox

namespace Testdox

/-! ## Words of `splitWhitespace` and the split/join inverse -/

theorem splitWhitespace_last {c : Char} {t : Str}
    (hc : c.isWhitespace = false) (e1 : splitWhitespace t = []) :
    splitWhitespace (c :: t) = [[c]] := by
  simp [splitWhitespace, hc, e1]

theorem splitWhitespace_glue {c d : Char} {t w0 : Str} {ws0 : List Str}
    (hc : c.isWhitespace = false) (e1 : splitWhitespace t = w0 :: ws0)
    (e2 : t.head? = some d) (hd : d.isWhitespace = false) :
    splitWhitespace (c :: t) = (c :: w0) :: ws0 := by
  simp [splitWhitespace, hc, e1, e2, hd]

theorem splitWhitespace_break {c d : Char} {t w0 : Str} {ws0 : List Str}
    (hc : c.isWhitespace = false) (e1 : splitWhitespace t = w0 :: ws0)
    (e2 : t.head? = some d) (hd : d.isWhitespace = true) :
    splitWhitespace (c :: t) = [c] :: w0 :: ws0 := by
  simp [splitWhitespace, hc, e1, e2, hd]

theorem splitWhitespace_words {u w : Str} (hw : w ∈ splitWhitespace u) :
    w ≠ [] ∧ ∀ c ∈ w, c.isWhitespace = false ∧ c ∈ u := by
  induction u generalizing w with
  | nil => cases hw
  | cons c t ih =>
    cases hc : c.isWhitespace
    case true =>
      rw [splitWhitespace_cons_ws hc] at hw
      obtain ⟨h1, h2⟩ := ih hw
      exact ⟨h1, fun d hd => ⟨(h2 d hd).1, List.mem_cons_of_mem c (h2 d hd).2⟩⟩
    case false =>
      rcases e1 : splitWhitespace t with _ | ⟨w0, ws0⟩
      · have hsw : splitWhitespace (c :: t) = [[c]] := by
          simp [splitWhitespace, hc, e1]
        rw [hsw] at hw
        rcases List.mem_cons.mp hw with rfl | hmem
        · refine ⟨by simp, fun d hd => ?_⟩
          rcases List.mem_cons.mp hd with rfl | hmem'
          · exact ⟨hc, List.mem_cons_self d t⟩
          · cases hmem'
        · cases hmem
      · rcases e2 : t.head? with _ | d
        · rw [List.head?_eq_none_iff] at e2
          subst e2
          rw [show splitWhitespace ([] : Str) = [] from rfl] at e1
          cases e1
        · cases hd : d.isWhitespace
          case true =>
            have hsw : splitWhitespace (c :: t) = [c] :: w0 :: ws0 := by
              simp [splitWhitespace, hc, e1, e2, hd]
            rw [hsw] at hw
            rcases List.mem_cons.mp hw with rfl | hmem
            · refine ⟨by simp, fun e he => ?_⟩
              rcases List.mem_cons.mp he with rfl | hmem'
              · exact ⟨hc, List.mem_cons_self e t⟩
              · cases hmem'
            · rw [← e1] at hmem
              obtain ⟨h1, h2⟩ := ih hmem
              exact ⟨h1, fun e he => ⟨(h2 e he).1, List.mem_cons_of_mem c (h2 e he).2⟩⟩
          case false =>
            have hsw : splitWhitespace (c :: t) = (c :: w0) :: ws0 := by
              simp [splitWhitespace, hc, e1, e2, hd]
            rw [hsw] at hw
            rcases List.mem_cons.mp hw with rfl | hmem
            · have hw0 : w0 ∈ splitWhitespace t := by
                rw [e1]
                exact List.mem_cons_self w0 ws0
              obtain ⟨h1, h2⟩ := ih hw0
              refine ⟨by simp, fun e he => ?_⟩
              rcases List.mem_cons.mp he with rfl | hmem'
              · exact ⟨hc, List.mem_cons_self e t⟩
              · exact ⟨(h2 e hmem').1, List.mem_cons_of_mem c (h2 e hmem').2⟩
            · have hmem' : w ∈ splitWhitespace t := by
                rw [e1]
                exact List.mem_cons_of_mem w0 hmem
              obtain ⟨h1, h2⟩ := ih hmem'
              exact ⟨h1, fun e he => ⟨(h2 e he).1, List.mem_cons_of_mem c (h2 e he).2⟩⟩

theorem splitWhitespace_all_nonws {w : Str} (hne : w ≠ [])
    (hall : ∀ c ∈ w, c.isWhitespace = false) : splitWhitespace w = [w] := by
  induction w with
  | nil => cases hne rfl
  | cons c t ih =>
    have hc := hall c (List.mem_cons_self c t)
    rcases t with _ | ⟨d, t'⟩
    · simp [splitWhitespace, hc]
    · have hd := hall d (List.mem_cons_of_mem c (List.mem_cons_self d t'))
      have iht : splitWhitespace (d :: t') = [d :: t'] :=
        ih (by simp) (fun e he => hall e (List.mem_cons_of_mem c he))
      exact splitWhitespace_glue hc iht rfl hd

theorem splitWhitespace_cons_space {c : Char} (hc : c.isWhitespace = false)
    (r : Str) : splitWhitespace (c :: ' ' :: r) = [c] :: splitWhitespace r := by
  have h1 : splitWhitespace (' ' :: r) = splitWhitespace r :=
    splitWhitespace_cons_ws (c := ' ') rfl r
  rcases e : splitWhitespace r with _ | ⟨w0, ws0⟩
  · rw [e] at h1
    simp [splitWhitespace, hc, h1, e]
  · rw [e] at h1
    simp [splitWhitespace, hc, h1, e]

theorem splitWhitespace_word_space {w : Str} (hne : w ≠ [])
    (hall : ∀ c ∈ w, c.isWhitespace = false) (r : Str) :
    splitWhitespace (w ++ ' ' :: r) = w :: splitWhitespace r := by
  induction w with
  | nil => cases hne rfl
  | cons c t ih =>
    have hc := hall c (List.mem_cons_self c t)
    rcases t with _ | ⟨d, t'⟩
    · exact splitWhitespace_cons_space hc r
    · have hd := hall d (List.mem_cons_of_mem c (List.mem_cons_self d t'))
      have iht : splitWhitespace ((d :: t') ++ ' ' :: r)
          = (d :: t') :: splitWhitespace r :=
        ih (by simp) (fun e he => hall e (List.mem_cons_of_mem c he))
      have hstep : ((c :: d :: t') ++ ' ' :: r : Str)
          = c :: ((d :: t') ++ ' ' :: r) := rfl
      rw [hstep]
      exact splitWhitespace_glue hc iht rfl hd

theorem mem_intercalate_space {c : Char} {L : List Str}
    (hm : c ∈ List.intercalate [' '] L) : c = ' ' ∨ ∃ w ∈ L, c ∈ w := by
  induction L with
  | nil =>
    rw [show List.intercalate [' '] ([] : List Str) = [] from rfl] at hm
    cases hm
  | cons w L' ih =>
    rcases L' with _ | ⟨y, L''⟩
    · rw [show List.intercalate [' '] [w] = w from by simp [List.intercalate]] at hm
      exact Or.inr ⟨w, by simp, hm⟩
    · rw [intercalate_cons_cons] at hm
      simp only [List.mem_append] at hm
      rcases hm with (hm | hm) | hm
      · exact Or.inr ⟨w, by simp, hm⟩
      · simp only [List.mem_singleton] at hm
        exact Or.inl hm
      · rcases ih hm with hsp | ⟨w', hw', hc'⟩
        · exact Or.inl hsp
        · exact Or.inr ⟨w', List.mem_cons_of_mem w hw', hc'⟩

theorem map_repl_of_no_us {y : Str} (h : '_' ∉ y) : y.map replUnderscore = y := by
  induction y with
  | nil => rfl
  | cons c t ih =>
    rw [List.map_cons, ih (fun hm => h (List.mem_cons_of_mem c hm))]
    congr 1
    rw [replUnderscore,
      if_neg (fun hc => h (by rw [hc]; exact List.mem_cons_self '_' t))]

theorem no_us_humanize (s : Str) : '_' ∉ humanize s := by
  intro hm
  rw [humanize] at hm
  rcases mem_intercalate_space hm with h | ⟨w, hw, hc⟩
  · exact absurd h (by decide)
  · have hprops := (splitWhitespace_words hw).2 '_' hc
    have hmem := hprops.2
    rw [List.mem_map] at hmem
    obtain ⟨c, _, hc'⟩ := hmem
    rw [replUnderscore] at hc'
    by_cases h0 : c = '_'
    · rw [if_pos h0] at hc'
      exact absurd hc' (by decide)
    · rw [if_neg h0] at hc'
      exact h0 hc'

theorem us_mem_of_marker {y : Str} (h : containsSub fnMarker y = true) :
    '_' ∈ y := by
  rw [containsSub_eq_true_iff] at h
  exact h.sublist.subset (show '_' ∈ fnMarker by decide)

theorem splitWs_intercalate_id {L : List Str}
    (hL : ∀ w ∈ L, w ≠ [] ∧ ∀ c ∈ w, c.isWhitespace = false) :
    splitWhitespace (List.intercalate [' '] L) = L := by
  induction L with
  | nil => rfl
  | cons w L' ih =>
    rcases L' with _ | ⟨y, L''⟩
    · rw [show List.intercalate [' '] [w] = w from by simp [List.intercalate]]
      obtain ⟨h1, h2⟩ := hL w (by simp)
      exact splitWhitespace_all_nonws h1 h2
    · rw [intercalate_cons_cons]
      obtain ⟨h1, h2⟩ := hL w (by simp)
      have hre : (w ++ [' '] ++ List.intercalate [' '] (y :: L'') : Str)
          = w ++ ' ' :: List.intercalate [' '] (y :: L'') := by simp
      rw [hre, splitWhitespace_word_space h1 h2,
        ih (fun v hv => hL v (List.mem_cons_of_mem w hv))]

theorem humanize_humanize (s : Str) : humanize (humanize s) = humanize s := by
  have h1 : (humanize s).map replUnderscore = humanize s :=
    map_repl_of_no_us (no_us_humanize s)
  have h2 : humanize (humanize s) =
      List.intercalate [' '] (splitWhitespace ((humanize s).map replUnderscore)) := rfl
  rw [h2, h1]
  have h3 : splitWhitespace (humanize s) = splitWhitespace
      (List.intercalate [' '] (splitWhitespace (s.map replUnderscore))) := rfl
  rw [h3, splitWs_intercalate_id (fun w hw =>
    ⟨(splitWhitespace_words hw).1, fun c hc => ((splitWhitespace_words hw).2 c hc).1⟩)]
  rfl

/-- **C7 counterexample.** At `x = "a  b_fn_c"` the prettified output
`"a  b c"` contains no underscore, yet re-feeding it changes it:
`prettify (prettify x) = "a b c" ≠ prettify x`. -/
theorem prettify_not_idempotent_counterexample :
    containsSub ['_'] (prettify ("a  b_fn_c".toList)) = false ∧
    prettify (prettify ("a  b_fn_c".toList)) ≠ prettify ("a  b_fn_c".toList) := by
  decide

/-- **C7 amended.** For every input `x` in which the escape marker
`"_fn_"` does not occur, `prettify x` contains no underscore and
re-feeding the already-prettified string returns it unchanged:
`prettify (prettify x) = prettify x`.  (Without that restriction the
claim fails: a head kept verbatim before `"_fn_"` may contain
unnormalised whitespace, see the counterexample.) -/
theorem prettify_idempotent_no_marker (x : Str)
    (h : containsSub fnMarker x = false) :
    containsSub ['_'] (prettify x) = false ∧
    prettify (prettify x) = prettify x := by
  have hnone : splitOnceSub fnMarker x = none := (splitOnceSub_eq_none_iff _ _).mpr h
  have hpretty : prettify x = humanize x := by
    simp only [prettify, hnone]
  have hnous : '_' ∉ prettify x := by
    rw [hpretty]
    exact no_us_humanize x
  constructor
  · cases hcs : containsSub ['_'] (prettify x)
    · rfl
    · exact absurd ((containsSub_singleton _ _).mp hcs) hnous
  · rw [hpretty]
    have hym : containsSub fnMarker (humanize x) = false := by
      cases hcs : containsSub fnMarker (humanize x)
      · rfl
      · exact absurd (us_mem_of_marker hcs) (no_us_humanize x)
    have hynone : splitOnceSub fnMarker (humanize x) = none :=
      (splitOnceSub_eq_none_iff _ _).mpr hym
    have hstep : prettify (humanize x) = humanize (humanize x) := by
      simp only [prettify, hynone]
    rw [hstep, humanize_humanize]

/-- Witness for the amended C7 at `"no_matches"`. -/
theorem prettify_idempotent_no_marker_witness :
    containsSub ['_'] (prettify ("no_matches".toList)) = false ∧
    prettify (prettify ("no_matches".toList)) = prettify ("no_matches".toList) :=
  prettify_idempotent_no_marker ("no_matches".toList) (by decide)

end Testdox

namespace Testdox

/-! ## Absence of the `"::"` separator in produced names -/

theorem isPrefixOf_single (q : Char) (l : Str) :
    List.isPrefixOf [q] l = decide (l.head? = some q) := by
  rcases l with _ | ⟨d, l'⟩
  · simp [List.isPrefixOf]
  · rw [isPrefixOf_cons_cons,
      show List.isPrefixOf ([] : Str) l' = true from by cases l' <;> rfl,
      Bool.and_true, List.head?_cons]
    by_cases hqd : q = d
    · subst hqd
      simp
    · have h1 : (q == d) = false := beq_eq_false_iff_ne.mpr hqd
      have h2 : some d ≠ some q := fun hcon => hqd (by
        injection hcon with hcon
        exact hcon.symm)
      rw [h1, decide_eq_false h2]

theorem beq_colon_repl (c : Char) :
    (':' == replUnderscore c) = (':' == c) := by
  rw [replUnderscore]
  by_cases h0 : c = '_'
  · rw [if_pos h0, h0]
    rfl
  · rw [if_neg h0]

theorem map_repl_no_colons {z : Str} (h : containsSub colons z = false) :
    containsSub colons (z.map replUnderscore) = false := by
  induction z with
  | nil => rfl
  | cons c t ih =>
    rw [containsSub_cons, Bool.or_eq_false_iff] at h
    obtain ⟨h1, h2⟩ := h
    rw [List.map_cons, containsSub_cons, ih h2, Bool.or_false]
    rw [show colons = [':', ':'] from rfl] at h1 ⊢
    rw [isPrefixOf_cons_cons, isPrefixOf_single] at h1 ⊢
    rw [beq_colon_repl, List.head?_map]
    by_cases h0 : (':' == c) = true
    · rw [h0, Bool.true_and] at h1 ⊢
      rcases e : t.head? with _ | d
      · simp
      · rw [e] at h1
        simp only [Option.map_some']
        have hd : d ≠ ':' := by
          intro hcon
          subst hcon
          simp at h1
        have hd' : replUnderscore d ≠ ':' := by
          rw [replUnderscore]
          by_cases hu : d = '_'
          · rw [if_pos hu]
            decide
          · rw [if_neg hu]
            exact hd
        rw [decide_eq_false (fun hcon => hd' (Option.some.inj hcon))]
    · have h0' : (':' == c) = false := by
        cases hx : (':' == c)
        · rfl
        · exact absurd hx h0
      rw [h0', Bool.false_and]

theorem collapseRuns_no_colons {u : Str} (h : containsSub colons u = false) :
    containsSub colons (collapseRuns u) = false := by
  induction u with
  | nil => rfl
  | cons c t ih =>
    rw [containsSub_cons, Bool.or_eq_false_iff] at h
    obtain ⟨h1, h2⟩ := h
    have hrec := ih h2
    cases hc : c.isWhitespace
    · rw [collapseRuns_cons_nonws hc, containsSub_cons, hrec, Bool.or_false]
      rw [show colons = [':', ':'] from rfl] at h1 ⊢
      rw [isPrefixOf_cons_cons] at h1 ⊢
      by_cases h0 : (':' == c) = true
      · rw [h0, Bool.true_and] at h1 ⊢
        rw [isPrefixOf_single] at h1 ⊢
        rw [collapseRuns_head]
        rcases e2 : t.head? with _ | d
        · simp
        · rw [e2] at h1
          apply decide_eq_false
          intro hcon
          rw [Option.map_some'] at hcon
          have hcon' := Option.some.inj hcon
          cases hdw : d.isWhitespace
          · rw [if_neg (by simp [hdw])] at hcon'
            rw [decide_eq_false_iff_not] at h1
            exact h1 (by rw [hcon'])
          · rw [if_pos hdw] at hcon'
            exact absurd hcon' (by decide)
      · have h0' : (':' == c) = false := by
          cases hx : (':' == c)
          · rfl
          · exact absurd hx h0
        rw [h0', Bool.false_and]
    · rw [collapseRuns_cons_ws hc]
      by_cases hh : (collapseRuns t).head? = some ' '
      · rw [if_pos hh]
        exact hrec
      · rw [if_neg hh, containsSub_cons, hrec, Bool.or_false]
        rw [show colons = [':', ':'] from rfl, isPrefixOf_cons_cons]
        rw [show (':' == ' ') = false from rfl, Bool.false_and]

theorem humanize_no_colons {z : Str} (h : containsSub colons z = false) :
    containsSub colons (humanize z) = false := by
  rw [humanize, intercalate_splitWs_eq]
  exact containsSub_collapseWsTrim_false
    (collapseRuns_no_colons (map_repl_no_colons h))

theorem containsSub_pair_append {p q : Char} {a b : Str}
    (ha : containsSub [p, q] a = false) (hb : containsSub [p, q] b = false)
    (hx : ∀ e, a.getLast? = some e → e = p → b.head? ≠ some q) :
    containsSub [p, q] (a ++ b) = false := by
  induction a with
  | nil => simpa using hb
  | cons c a' ih =>
    rw [containsSub_cons, Bool.or_eq_false_iff] at ha
    obtain ⟨ha1, ha2⟩ := ha
    rw [show ((c :: a') ++ b : Str) = c :: (a' ++ b) from rfl, containsSub_cons]
    have hx' : ∀ e, a'.getLast? = some e → e = p → b.head? ≠ some q := by
      intro e he hep
      rcases a' with _ | ⟨d, a''⟩
      · cases he
      · exact hx e (by rw [List.getLast?_cons_cons]; exact he) hep
    rw [ih ha2 hx', Bool.or_false]
    rw [isPrefixOf_cons_cons]
    by_cases hpc : (p == c) = true
    · rw [hpc, Bool.true_and]
      rcases a' with _ | ⟨d, a''⟩
      · rw [isPrefixOf_single, List.nil_append]
        have hbq := hx c rfl (beq_iff_eq.mp hpc).symm
        rw [decide_eq_false hbq]
      · rw [isPrefixOf_cons_cons] at ha1
        rw [hpc, Bool.true_and] at ha1
        rw [isPrefixOf_single] at ha1 ⊢
        rw [List.head?_cons] at ha1
        rw [show ((d :: a'') ++ b : Str) = d :: (a'' ++ b) from rfl, List.head?_cons]
        exact ha1
    · have hpc' : (p == c) = false := by
        cases hx0 : (p == c)
        · rfl
        · exact absurd hx0 hpc
      rw [hpc', Bool.false_and]

theorem prettify_no_colons {z : Str} (h : containsSub colons z = false) :
    containsSub colons (prettify z) = false := by
  rcases e : splitOnceSub fnMarker z with _ | ⟨a, b⟩
  · simp only [prettify, e]
    exact humanize_no_colons h
  · simp only [prettify, e]
    have hz := splitOnceSub_eq_some e
    have ha : containsSub colons a = false := by
      refine containsSub_mono_hay ?_ h
      rw [hz]
      exact ((List.prefix_append a fnMarker).trans
        (List.prefix_append (a ++ fnMarker) b)).isInfix
    have hb : containsSub colons b = false := by
      refine containsSub_mono_hay ?_ h
      rw [hz]
      exact (List.suffix_append (a ++ fnMarker) b).isInfix
    have hhb : containsSub colons (humanize b) = false := humanize_no_colons hb
    rw [show colons = [':', ':'] from rfl] at ha ⊢
    refine containsSub_pair_append ha ?_ ?_
    · rw [containsSub_cons, isPrefixOf_cons_cons,
        show (':' == ' ') = false from rfl, Bool.false_and, Bool.false_or]
      rw [show ([':', ':'] : Str) = colons from rfl]
      exact hhb
    · intro e he hep hcon
      rw [List.head?_cons] at hcon
      injection hcon with hcon
      exact absurd hcon (by decide)

theorem rsplit_name_no_colons {test m n : Str}
    (e : rsplitOnceSub colons test = some (m, n)) :
    containsSub colons n = false := by
  rw [rsplitOnceSub] at e
  rcases e' : splitOnceSub colons.reverse test.reverse with _ | ⟨a, b⟩
  · rw [e'] at e
    cases e
  · rw [e'] at e
    simp only [Option.map_some'] at e
    obtain ⟨hm, hn⟩ : m = b.reverse ∧ n = a.reverse := by
      constructor <;> (cases e; rfl)
    subst hn
    have hca : containsSub colons.reverse a = false :=
      splitOnceSub_left (by decide) e'
    rw [containsSub_reverse]
    exact hca

theorem rsplit_none_no_colons {test : Str}
    (e : rsplitOnceSub colons test = none) :
    containsSub colons test = false := by
  rw [rsplitOnceSub] at e
  rcases e' : splitOnceSub colons.reverse test.reverse with _ | p
  · have hc := (splitOnceSub_eq_none_iff _ _).mp e'
    have h2 := containsSub_reverse colons.reverse test
    rw [List.reverse_reverse] at h2
    rw [← h2]
    exact hc
  · rw [e'] at e
    cases e

/-- **C6 counterexample.** The degenerate line `"test  ... ok"` (empty raw
test path) is classified and produces a `TestResult` whose `name` is the
empty string, contradicting "name is never empty". -/
theorem name_empty_counterexample :
    parse_test_results ("test  ... ok".toList) = [⟨none, [], Status.Pass⟩] ∧
    (⟨none, [], Status.Pass⟩ : TestResult).name = [] := by
  decide

/-- **C6 amended.** For every `TestResult` produced by the engine, the
`name` field never contains the path separator `"::"` (it can, however,
be empty in degenerate cases such as an empty raw test path, see the
counterexample). -/
theorem name_no_separator (text : Str) (r : TestResult)
    (hr : r ∈ parse_test_results text) :
    containsSub colons r.name = false := by
  rw [parse_test_results, List.mem_filterMap] at hr
  obtain ⟨line, _, hline⟩ := hr
  rcases e1 : stripPre testSp line with _ | rest
  · simp only [parse_line, e1] at hline
    exact Option.noConfusion hline
  · simp only [parse_line, e1] at hline
    by_cases hb : (resultTok.isPrefixOf rest || containsSub parenLine rest) = true
    · rw [if_pos hb] at hline
      cases hline
    · rw [if_neg hb] at hline
      rcases e2 : splitOnceSub sepDots rest with _ | ⟨test, status⟩
      · simp only [e2] at hline
        exact Option.noConfusion hline
      · simp only [e2] at hline
        rcases e3 : rsplitOnceSub colons test with _ | ⟨m, n⟩
        · simp only [e3] at hline
          rcases e4 : (status_from_str status).toOption with _ | st
          · simp only [e4] at hline
            exact Option.noConfusion hline
          · simp only [e4] at hline
            injection hline with hline
            rw [← hline]
            exact prettify_no_colons (rsplit_none_no_colons e3)
        · simp only [e3] at hline
          rcases e4 : (status_from_str status).toOption with _ | st
          · simp only [e4] at hline
            exact Option.noConfusion hline
          · simp only [e4] at hline
            injection hline with hline
            rw [← hline]
            exact prettify_no_colons (rsplit_name_no_colons e3)

/-- Witness for the amended C6 at the line `"test a::b ... ok"`. -/
theorem name_no_separator_witness :
    containsSub colons (⟨some ['a'], ['b'], Status.Pass⟩ : TestResult).name = false :=
  name_no_separator ("test a::b ... ok".toList)
    ⟨some ['a'], ['b'], Status.Pass⟩ (by decide)

end Testdox

namespace Testdox

/-! ## Rendering: color codes strip back to the plain rendering -/

theorem stripAnsiAux_keep {c : Char} (h : c ≠ '\x1b') (t : Str) :
    stripAnsiAux false (c :: t) = c :: stripAnsiAux false t := by
  rw [stripAnsiAux.eq_5]
  intro t' hc _
  exact h hc

theorem stripAnsiAux_code {code : Str} (h : 'm' ∉ code) (r : Str) :
    stripAnsiAux true (code ++ 'm' :: r) = stripAnsiAux false r := by
  induction code with
  | nil =>
    rw [List.nil_append, stripAnsiAux.eq_2, if_pos rfl]
  | cons c code' ih =>
    rw [List.cons_append, stripAnsiAux.eq_2,
      if_neg (fun hc => h (by rw [← hc]; exact List.mem_cons_self c code'))]
    exact ih (fun hm => h (List.mem_cons_of_mem c hm))

theorem stripAnsiAux_noesc {s : Str} (h : ∀ c ∈ s, c ≠ '\x1b') (r : Str) :
    stripAnsiAux false (s ++ r) = s ++ stripAnsiAux false r := by
  induction s with
  | nil => rfl
  | cons c s' ih =>
    rw [List.cons_append, stripAnsiAux_keep (h c (List.mem_cons_self c s')),
      ih (fun d hd => h d (List.mem_cons_of_mem c hd))]
    rfl

theorem stripAnsiAux_id {s : Str} (h : ∀ c ∈ s, c ≠ '\x1b') :
    stripAnsiAux false s = s := by
  have h2 := stripAnsiAux_noesc h []
  rw [List.append_nil] at h2
  rw [h2, stripAnsiAux.eq_3, List.append_nil]

theorem stripAnsi_wrap {code s : Str} (hm : 'm' ∉ code)
    (hs : ∀ c ∈ s, c ≠ '\x1b') (r : Str) :
    stripAnsiAux false (ansiWrap code s ++ r) = s ++ stripAnsiAux false r := by
  have hassoc : ansiWrap code s ++ r =
      '\x1b' :: '[' :: (code ++ 'm' :: (s ++ '\x1b' :: '[' :: '0' :: 'm' :: r)) := by
    simp [ansiWrap]
  rw [hassoc, stripAnsiAux.eq_4, stripAnsiAux_code hm, stripAnsiAux_noesc hs,
    stripAnsiAux.eq_4, show ('0' :: 'm' :: r : Str) = ['0'] ++ 'm' :: r from rfl,
    stripAnsiAux_code (by decide)]

theorem glyph_noesc (st : Status) : ∀ c ∈ statusGlyph st, c ≠ '\x1b' := by
  cases st <;> decide

theorem statusColor_no_m (st : Status) : 'm' ∉ statusColor st := by
  cases st <;> decide

/-- **C8.** Rendering a `TestResult` is a total function producing
`"<glyph> <module> – <name>"` when a module is present and
`"<glyph> <name>"` otherwise; the glyph mapping is fixed (Pass → `✔`,
Fail → `x`, Ignored → `?`); and the semantic glyphs are identical with
or without color support: stripping the ANSI color escapes from the
colored rendering yields exactly the uncolored rendering. -/
theorem display_test_result_spec (r : TestResult)
    (hname : ∀ c ∈ r.name, c ≠ '\x1b')
    (hmod : ∀ c ∈ r.module.getD [], c ≠ '\x1b') :
    (displayTestResult false r =
      match r.module with
      | some m => statusGlyph r.status ++ ' ' :: (m ++ ' ' :: '–' :: ' ' :: r.name)
      | none => statusGlyph r.status ++ ' ' :: r.name) ∧
    stripAnsi (displayTestResult true r) = displayTestResult false r ∧
    statusGlyph Status.Pass = ['✔'] ∧ statusGlyph Status.Fail = ['x'] ∧
    statusGlyph Status.Ignored = ['?'] := by
  rcases r with ⟨mo, na, st⟩
  rcases mo with _ | m
  · refine ⟨by simp [displayTestResult, displayStatus, paint], ?_, rfl, rfl, rfl⟩
    have h1 : displayTestResult true ⟨none, na, st⟩ =
        ansiWrap (statusColor st) (statusGlyph st) ++ ' ' :: na := by
      simp [displayTestResult, displayStatus, paint]
    have h2 : displayTestResult false ⟨none, na, st⟩ =
        statusGlyph st ++ ' ' :: na := by
      simp [displayTestResult, displayStatus, paint]
    rw [h1, h2, stripAnsi, stripAnsi_wrap (statusColor_no_m st) (glyph_noesc st)]
    congr 1
    rw [stripAnsiAux_keep (by decide)]
    congr 1
    exact stripAnsiAux_id hname
  · simp only [Option.getD_some] at hmod
    refine ⟨by simp [displayTestResult, displayStatus, paint], ?_, rfl, rfl, rfl⟩
    have h1 : displayTestResult true ⟨some m, na, st⟩ =
        ansiWrap (statusColor st) (statusGlyph st) ++
          ' ' :: (ansiWrap moduleColor m ++ ' ' :: '–' :: ' ' :: na) := by
      simp [displayTestResult, displayStatus, paint]
    have h2 : displayTestResult false ⟨some m, na, st⟩ =
        statusGlyph st ++ ' ' :: (m ++ ' ' :: '–' :: ' ' :: na) := by
      simp [displayTestResult, displayStatus, paint]
    rw [h1, h2, stripAnsi, stripAnsi_wrap (statusColor_no_m st) (glyph_noesc st)]
    congr 1
    rw [stripAnsiAux_keep (by decide)]
    congr 1
    rw [stripAnsi_wrap (by decide) hmod]
    congr 1
    rw [stripAnsiAux_keep (by decide), stripAnsiAux_keep (by decide),
      stripAnsiAux_keep (by decide)]
    rw [stripAnsiAux_id hname]

/-- Witness for C8 at a result with a module, rendered both ways. -/
theorem display_test_result_spec_witness :
    (displayTestResult false ⟨some ("foo".toList), "does stuff".toList, Status.Pass⟩ =
      match (⟨some ("foo".toList), "does stuff".toList, Status.Pass⟩ : TestResult).module with
      | some m => statusGlyph Status.Pass ++ ' ' :: (m ++ ' ' :: '–' :: ' ' :: "does stuff".toList)
      | none => statusGlyph Status.Pass ++ ' ' :: "does stuff".toList) ∧
    stripAnsi (displayTestResult true ⟨some ("foo".toList), "does stuff".toList, Status.Pass⟩) =
      displayTestResult false ⟨some ("foo".toList), "does stuff".toList, Status.Pass⟩ ∧
    statusGlyph Status.Pass = ['✔'] ∧ statusGlyph Status.Fail = ['x'] ∧
    statusGlyph Status.Ignored = ['?'] :=
  display_test_result_spec ⟨some ("foo".toList), "does stuff".toList, Status.Pass⟩
    (by decide) (by decide)

end Testdox
